import Mathlib

/-!
Verification of the EZD global-minimization core of pycalphad
(`src/libgibbs/include/optimizer/utils/ezd_minimization.hpp`).

The header declares a plain `Domain<T>` value type (two nested coordinate
vectors, one inner vector per sublattice) and the entry point
`LocateMinima(CompositionSet const&, sublattice_set const&,
evalconditions const&, std::size_t depth = 1)`.  The engine body and the
collaborator types are not part of the shown sources, so the algorithmic
definitions below are modelled from the specification and marked as such;
the `Domain` structure itself is a direct embedding of the header.

Coordinates are embedded as rationals (`ℚ`): the algorithm uses only
field operations (midpoints, differences) and order comparisons.
-/

namespace Optimizer

/-- Direct embedding of `template <typename T> struct Domain` from
`ezd_minimization.hpp`: one axis-aligned hyper-rectangle of composition
space, as paired lower/upper corner coordinate sequences, one inner
sequence per sublattice.  The C++ struct has no constructor and no
invariant: any pair of nested sequences is a `Domain`. -/
structure Domain (T : Type) where
  lower_left_corner : List (List T)
  upper_right_corner : List (List T)
deriving DecidableEq, Repr

/-- Boolean `≤` on rationals, used pointwise on corner coordinates. -/
def qle (a b : ℚ) : Bool := decide (a ≤ b)

/-- Boolean `<` on rationals, used for strict (interior) membership. -/
def qlt (a b : ℚ) : Bool := decide (a < b)

/-- Shape equality of two nested coordinate sequences: same number of
sublattices and the same number of site species per sublattice. -/
def sameShape : List (List ℚ) → List (List ℚ) → Bool
  | [], [] => true
  | a :: as, b :: bs => (decide (a.length = b.length)) && sameShape as bs
  | _, _ => false

/-- Pointwise `≤` between two coordinate rows of equal length. -/
def leAll : List ℚ → List ℚ → Bool
  | [], [] => true
  | a :: as, b :: bs => qle a b && leAll as bs
  | _, _ => false

/-- Pointwise `≤` between two nested coordinate sequences of equal shape:
the documented corner invariant `lower_left_corner[i][j] <=
upper_right_corner[i][j]` for all i, j. -/
def leAll2 : List (List ℚ) → List (List ℚ) → Bool
  | [], [] => true
  | a :: as, b :: bs => leAll a b && leAll2 as bs
  | _, _ => false

/-- The documented (not type-enforced) Domain invariant: corners have the
same shape and are pointwise ordered. -/
def domainInvariant (d : Domain ℚ) : Bool :=
  sameShape d.lower_left_corner d.upper_right_corner &&
    leAll2 d.lower_left_corner d.upper_right_corner

theorem leAll_refl (l : List ℚ) : leAll l l = true := by
  induction l with
  | nil => rfl
  | cons a as ih => simp [leAll, qle, ih]

theorem leAll2_refl (L : List (List ℚ)) : leAll2 L L = true := by
  induction L with
  | nil => rfl
  | cons a as ih => simp [leAll2, leAll_refl, ih]

theorem leAll_sameLength {a b : List ℚ} (h : leAll a b = true) :
    a.length = b.length := by
  induction a generalizing b with
  | nil => cases b with
    | nil => rfl
    | cons x xs => simp [leAll] at h
  | cons x xs ih => cases b with
    | nil => simp [leAll] at h
    | cons y ys =>
      simp [leAll] at h
      simp [ih h.2]

theorem leAll2_sameShape {A B : List (List ℚ)} (h : leAll2 A B = true) :
    sameShape A B = true := by
  induction A generalizing B with
  | nil => cases B with
    | nil => rfl
    | cons x xs => simp [leAll2] at h
  | cons x xs ih => cases B with
    | nil => simp [leAll2] at h
    | cons y ys =>
      simp [leAll2] at h
      simp [sameShape, leAll_sameLength h.1, ih h.2]

theorem sameShape_self (L : List (List ℚ)) : sameShape L L = true := by
  induction L with
  | nil => rfl
  | cons a as ih => simp [sameShape, ih]

/-- Coordinate of a nested corner sequence at sublattice `i`, site `j`
(defaulting to `0` outside the shape). -/
def get2 (L : List (List ℚ)) (i j : Nat) : ℚ := (L.getD i []).getD j 0

/-- Replace the coordinate at sublattice `i`, site `j` (identity outside
the shape). -/
def update2 : List (List ℚ) → Nat → Nat → ℚ → List (List ℚ)
  | [], _, _, _ => []
  | row :: rest, 0, j, v => row.set j v :: rest
  | row :: rest, i + 1, j, v => row :: update2 rest i j v

/-- All axis indices `(sublattice, site)` of a nested coordinate
sequence, in the fixed priority order: sublattice index, then site
index. -/
def axisList : List (List ℚ) → List (Nat × Nat)
  | [] => []
  | row :: rest =>
      (List.range row.length).map (fun j => (0, j)) ++
        (axisList rest).map (fun p => (p.1 + 1, p.2))

/-- Modelled from the spec: the axis-selection rule of the EZD engine
(absent from the shown sources, which hold only the `LocateMinima`
declaration).  Picks, among tagged axes, a tag of greatest extent,
keeping the earliest one on ties (fixed axis-priority order). -/
def bestAxis : List ((Nat × Nat) × ℚ) → Option ((Nat × Nat) × ℚ)
  | [] => none
  | x :: rest =>
      match bestAxis rest with
      | none => some x
      | some y => if qlt x.2 y.2 then some y else some x

/-- Modelled from the spec: the axis of greatest extent of a `Domain`,
ties broken by sublattice index then site index; `none` when the Domain
has no coordinate axes at all. -/
def widestAxis (d : Domain ℚ) : Option (Nat × Nat) :=
  (bestAxis ((axisList d.lower_left_corner).map
    (fun ax => (ax, get2 d.upper_right_corner ax.1 ax.2 -
      get2 d.lower_left_corner ax.1 ax.2)))).map (fun y => y.1)

/-- Modelled from the spec: the width/size query of a `Domain` — the
maximum per-axis extent (0 for an axis-less Domain). -/
def domWidth (d : Domain ℚ) : ℚ :=
  (axisList d.lower_left_corner).foldr
    (fun ax acc => max (get2 d.upper_right_corner ax.1 ax.2 -
      get2 d.lower_left_corner ax.1 ax.2) acc) 0

/-- Modelled from the spec: the split operation of the EZD engine
(absent from the shown sources).  Splits a `Domain` at the midpoint of
its widest axis into two children; an axis-less Domain (nothing to
split) is returned unchanged as its own single child. -/
def splitDomain (d : Domain ℚ) : List (Domain ℚ) :=
  match widestAxis d with
  | none => [d]
  | some (i, j) =>
      let l := get2 d.lower_left_corner i j
      let u := get2 d.upper_right_corner i j
      let m := (l + u) / 2
      [⟨d.lower_left_corner, update2 d.upper_right_corner i j m⟩,
       ⟨update2 d.lower_left_corner i j m, d.upper_right_corner⟩]

/-- Row-wise box membership: `ls ≤ xs ≤ us` pointwise, with matching
lengths. -/
def inBox : List ℚ → List ℚ → List ℚ → Bool
  | [], [], [] => true
  | l :: ls, u :: us, x :: xs => (qle l x && qle x u) && inBox ls us xs
  | _, _, _ => false

/-- Nested box membership: the point lies between the two corners. -/
def inBox2 : List (List ℚ) → List (List ℚ) → List (List ℚ) → Bool
  | [], [], [] => true
  | l :: ls, u :: us, x :: xs => inBox l u x && inBox2 ls us xs
  | _, _, _ => false

/-- Row-wise strict box membership (`<` pointwise). -/
def inBoxLt : List ℚ → List ℚ → List ℚ → Bool
  | [], [], [] => true
  | l :: ls, u :: us, x :: xs => (qlt l x && qlt x u) && inBoxLt ls us xs
  | _, _, _ => false

/-- Nested strict box membership. -/
def inBoxLt2 : List (List ℚ) → List (List ℚ) → List (List ℚ) → Bool
  | [], [], [] => true
  | l :: ls, u :: us, x :: xs => inBoxLt l u x && inBoxLt2 ls us xs
  | _, _, _ => false

/-- A point lies in a `Domain` (between its two corners). -/
def memD (d : Domain ℚ) (p : List (List ℚ)) : Bool :=
  inBox2 d.lower_left_corner d.upper_right_corner p

/-- A point lies in the open interior of a `Domain`. -/
def interiorD (d : Domain ℚ) (p : List (List ℚ)) : Bool :=
  inBoxLt2 d.lower_left_corner d.upper_right_corner p

theorem bool_and_or_right (a b c : Bool) :
    ((a || b) && c) = (a && c || b && c) := by
  cases a <;> cases b <;> cases c <;> rfl

theorem bool_and_or_left (a b c : Bool) :
    (a && (b || c)) = (a && b || a && c) := by
  cases a <;> cases b <;> cases c <;> rfl

theorem scalarSplit (l u m x : ℚ) (h1 : l ≤ m) (h2 : m ≤ u) :
    (qle l x && qle x u) = (qle l x && qle x m || qle m x && qle x u) := by
  simp only [qle]
  rcases le_total x m with hxm | hmx
  · have hxu : x ≤ u := le_trans hxm h2
    by_cases hmx2 : m ≤ x
    · have hlx : l ≤ x := le_trans h1 hmx2
      simp [hlx, hxm, hxu, hmx2]
    · simp [hxm, hxu, hmx2]
  · have hlx : l ≤ x := le_trans h1 hmx
    by_cases hxm2 : x ≤ m
    · have hxu : x ≤ u := le_trans hxm2 h2
      simp [hlx, hmx, hxm2, hxu]
    · simp [hlx, hmx, hxm2]

theorem inBox_split (ls : List ℚ) (us xs : List ℚ) (j : Nat) (m : ℚ)
    (h1 : ls.getD j 0 ≤ m) (h2 : m ≤ us.getD j 0) :
    inBox ls us xs = (inBox ls (us.set j m) xs || inBox (ls.set j m) us xs) := by
  induction ls generalizing us xs j with
  | nil =>
    cases us with
    | nil => cases xs <;> simp [inBox]
    | cons u us' => cases xs <;> cases j <;> simp [inBox]
  | cons l ls' ih =>
    cases us with
    | nil => cases xs <;> cases j <;> simp [inBox]
    | cons u us' =>
      cases xs with
      | nil => cases j <;> simp [inBox]
      | cons x xs' =>
        cases j with
        | zero =>
          simp only [List.getD_cons_zero] at h1 h2
          simp only [List.set, inBox]
          rw [scalarSplit l u m x h1 h2, bool_and_or_right]
        | succ j' =>
          simp only [List.getD_cons_succ] at h1 h2
          simp only [List.set, inBox]
          rw [ih us' xs' j' h1 h2, bool_and_or_left]

theorem inBox2_split (L : List (List ℚ)) (U P : List (List ℚ)) (i j : Nat)
    (m : ℚ) (h1 : get2 L i j ≤ m) (h2 : m ≤ get2 U i j) :
    inBox2 L U P =
      (inBox2 L (update2 U i j m) P || inBox2 (update2 L i j m) U P) := by
  induction L generalizing U P i with
  | nil =>
    cases U with
    | nil => cases P <;> simp [inBox2, update2]
    | cons u us' => cases P <;> cases i <;> simp [inBox2, update2]
  | cons l ls' ih =>
    cases U with
    | nil => cases P <;> cases i <;> simp [inBox2, update2]
    | cons u us' =>
      cases P with
      | nil => cases i <;> simp [inBox2, update2]
      | cons x xs' =>
        cases i with
        | zero =>
          simp only [get2, List.getD_cons_zero] at h1 h2
          simp only [update2, inBox2]
          rw [inBox_split l u x j m h1 h2, bool_and_or_right]
        | succ i' =>
          simp only [get2, List.getD_cons_succ] at h1 h2
          simp only [update2, inBox2]
          rw [ih us' xs' i' h1 h2, bool_and_or_left]

theorem inBoxLt_at (ls : List ℚ) (us xs : List ℚ) (j : Nat)
    (h : inBoxLt ls us xs = true) (hj : j < ls.length) :
    ls.getD j 0 < xs.getD j 0 ∧ xs.getD j 0 < us.getD j 0 := by
  induction ls generalizing us xs j with
  | nil => simp at hj
  | cons l ls' ih =>
    cases us with
    | nil => simp [inBoxLt] at h
    | cons u us' =>
      cases xs with
      | nil => simp [inBoxLt] at h
      | cons x xs' =>
        simp only [inBoxLt, Bool.and_eq_true] at h
        cases j with
        | zero =>
          simp only [List.getD_cons_zero]
          simp only [qlt, Bool.and_eq_true, decide_eq_true_eq] at h
          exact h.1
        | succ j' =>
          simp only [List.getD_cons_succ]
          exact ih us' xs' j' h.2 (Nat.lt_of_succ_lt_succ hj)

theorem inBoxLt2_at (L : List (List ℚ)) (U P : List (List ℚ)) (i j : Nat)
    (h : inBoxLt2 L U P = true) (hi : i < L.length)
    (hj : j < (L.getD i []).length) :
    get2 L i j < get2 P i j ∧ get2 P i j < get2 U i j := by
  induction L generalizing U P i with
  | nil => simp at hi
  | cons l ls' ih =>
    cases U with
    | nil => simp [inBoxLt2] at h
    | cons u us' =>
      cases P with
      | nil => simp [inBoxLt2] at h
      | cons x xs' =>
        simp only [inBoxLt2, Bool.and_eq_true] at h
        cases i with
        | zero =>
          simp only [List.getD_cons_zero] at hj
          simp only [get2, List.getD_cons_zero]
          exact inBoxLt_at l u x j h.1 hj
        | succ i' =>
          simp only [List.getD_cons_succ] at hj
          simp only [get2, List.getD_cons_succ]
          exact ih us' xs' i' h.2 (Nat.lt_of_succ_lt_succ hi) hj

theorem getD_set_self (l : List ℚ) (j : Nat) (v : ℚ) (hj : j < l.length) :
    (l.set j v).getD j 0 = v := by
  induction l generalizing j with
  | nil => simp at hj
  | cons a as ih =>
    cases j with
    | zero => simp [List.set]
    | succ j' =>
      simp only [List.set, List.getD_cons_succ]
      exact ih j' (Nat.lt_of_succ_lt_succ hj)

theorem update2_length (L : List (List ℚ)) (i j : Nat) (v : ℚ) :
    (update2 L i j v).length = L.length := by
  induction L generalizing i with
  | nil => rfl
  | cons row rest ih =>
    cases i with
    | zero => simp [update2]
    | succ i' => simp [update2, ih]

theorem update2_getD_length (L : List (List ℚ)) (i j : Nat) (v : ℚ)
    (i' : Nat) : ((update2 L i j v).getD i' []).length = (L.getD i' []).length := by
  induction L generalizing i i' with
  | nil => simp [update2]
  | cons row rest ih =>
    cases i with
    | zero =>
      cases i' with
      | zero => simp [update2]
      | succ k => simp [update2]
    | succ iv =>
      cases i' with
      | zero => simp [update2]
      | succ k =>
        simp only [update2, List.getD_cons_succ]
        exact ih iv k

theorem get2_update2_self (L : List (List ℚ)) (i j : Nat) (v : ℚ)
    (hi : i < L.length) (hj : j < (L.getD i []).length) :
    get2 (update2 L i j v) i j = v := by
  induction L generalizing i with
  | nil => simp at hi
  | cons row rest ih =>
    cases i with
    | zero =>
      simp only [List.getD_cons_zero] at hj
      simp only [update2, get2, List.getD_cons_zero]
      exact getD_set_self row j v hj
    | succ i' =>
      simp only [List.getD_cons_succ] at hj
      simp only [update2, get2, List.getD_cons_succ]
      exact ih i' (Nat.lt_of_succ_lt_succ hi) hj

theorem axisList_mem (L : List (List ℚ)) (i j : Nat)
    (h : (i, j) ∈ axisList L) : i < L.length ∧ j < (L.getD i []).length := by
  induction L generalizing i with
  | nil => simp [axisList] at h
  | cons row rest ih =>
    simp only [axisList, List.mem_append, List.mem_map, List.mem_range] at h
    rcases h with ⟨j', hj', heq⟩ | ⟨p, hp, heq⟩
    · obtain ⟨hi0, hj0⟩ : i = 0 ∧ j = j' := by
        constructor <;> [exact (Prod.mk.injEq _ _ _ _ ▸ heq).1.symm;
          exact (Prod.mk.injEq _ _ _ _ ▸ heq).2.symm]
      subst hi0; subst hj0
      simp [hj']
    · obtain ⟨hi1, hj1⟩ : i = p.1 + 1 ∧ j = p.2 := by
        constructor <;> [exact (Prod.mk.injEq _ _ _ _ ▸ heq).1.symm;
          exact (Prod.mk.injEq _ _ _ _ ▸ heq).2.symm]
      subst hi1; subst hj1
      have := ih p.1 (by simpa using hp)
      simp only [List.length_cons, List.getD_cons_succ]
      exact ⟨Nat.succ_lt_succ this.1, this.2⟩

theorem bestAxis_mem (xs : List ((Nat × Nat) × ℚ)) (y : (Nat × Nat) × ℚ)
    (h : bestAxis xs = some y) : y ∈ xs := by
  induction xs with
  | nil => simp [bestAxis] at h
  | cons x rest ih =>
    simp only [bestAxis] at h
    cases hb : bestAxis rest with
    | none =>
      rw [hb] at h
      simp only [Option.some.injEq] at h
      simp [← h]
    | some z =>
      rw [hb] at h
      by_cases hc : qlt x.2 z.2 = true
      · simp only [hc, if_true, Option.some.injEq] at h
        subst h
        exact List.mem_cons_of_mem x (ih hb)
      · simp only [Bool.not_eq_true] at hc
        simp only [hc, Bool.false_eq_true, if_false, Option.some.injEq] at h
        simp [← h]

theorem widestAxis_valid (d : Domain ℚ) (i j : Nat)
    (h : widestAxis d = some (i, j)) :
    i < d.lower_left_corner.length ∧
      j < (d.lower_left_corner.getD i []).length := by
  simp only [widestAxis, Option.map_eq_some'] at h
  obtain ⟨y, hy, hy1⟩ := h
  have hmem := bestAxis_mem _ y hy
  simp only [List.mem_map] at hmem
  obtain ⟨ax, hax, haxy⟩ := hmem
  have : ax = (i, j) := by rw [← haxy] at hy1; simpa using hy1
  exact axisList_mem _ i j (this ▸ hax)

theorem leAll_at (a b : List ℚ) (j : Nat) (h : leAll a b = true)
    (hj : j < a.length) : a.getD j 0 ≤ b.getD j 0 := by
  induction a generalizing b j with
  | nil => simp at hj
  | cons x xs ih =>
    cases b with
    | nil => simp [leAll] at h
    | cons y ys =>
      simp only [leAll, Bool.and_eq_true, qle, decide_eq_true_eq] at h
      cases j with
      | zero => simpa using h.1
      | succ j' =>
        simp only [List.getD_cons_succ]
        exact ih ys j' h.2 (Nat.lt_of_succ_lt_succ hj)

theorem leAll2_at (L U : List (List ℚ)) (i j : Nat)
    (h : leAll2 L U = true) (hi : i < L.length)
    (hj : j < (L.getD i []).length) : get2 L i j ≤ get2 U i j := by
  induction L generalizing U i with
  | nil => simp at hi
  | cons row rest ih =>
    cases U with
    | nil => simp [leAll2] at h
    | cons urow urest =>
      simp only [leAll2, Bool.and_eq_true] at h
      cases i with
      | zero =>
        simp only [List.getD_cons_zero] at hj
        simp only [get2, List.getD_cons_zero]
        exact leAll_at row urow j h.1 hj
      | succ i' =>
        simp only [List.getD_cons_succ] at hj
        simp only [get2, List.getD_cons_succ]
        exact ih urest i' h.2 (Nat.lt_of_succ_lt_succ hi) hj

theorem leAll_set_right (a b : List ℚ) (j : Nat) (m : ℚ)
    (h : leAll a b = true) (hm : a.getD j 0 ≤ m) :
    leAll a (b.set j m) = true := by
  induction a generalizing b j with
  | nil =>
    cases b with
    | nil => rfl
    | cons y ys => simp [leAll] at h
  | cons x xs ih =>
    cases b with
    | nil => simp [leAll] at h
    | cons y ys =>
      simp only [leAll, Bool.and_eq_true] at h
      cases j with
      | zero =>
        simp only [List.getD_cons_zero] at hm
        simp only [List.set, leAll, Bool.and_eq_true, qle, decide_eq_true_eq]
        exact ⟨hm, h.2⟩
      | succ j' =>
        simp only [List.getD_cons_succ] at hm
        simp only [List.set, leAll, Bool.and_eq_true]
        exact ⟨h.1, ih ys j' h.2 hm⟩

theorem leAll_set_left (a b : List ℚ) (j : Nat) (m : ℚ)
    (h : leAll a b = true) (hm : m ≤ b.getD j 0) :
    leAll (a.set j m) b = true := by
  induction a generalizing b j with
  | nil =>
    cases b with
    | nil => rfl
    | cons y ys => simp [leAll] at h
  | cons x xs ih =>
    cases b with
    | nil => simp [leAll] at h
    | cons y ys =>
      simp only [leAll, Bool.and_eq_true] at h
      cases j with
      | zero =>
        simp only [List.getD_cons_zero] at hm
        simp only [List.set, leAll, Bool.and_eq_true, qle, decide_eq_true_eq]
        exact ⟨hm, h.2⟩
      | succ j' =>
        simp only [List.getD_cons_succ] at hm
        simp only [List.set, leAll, Bool.and_eq_true]
        exact ⟨h.1, ih ys j' h.2 hm⟩

theorem leAll2_update2_right (L U : List (List ℚ)) (i j : Nat) (m : ℚ)
    (h : leAll2 L U = true) (hm : get2 L i j ≤ m) :
    leAll2 L (update2 U i j m) = true := by
  induction L generalizing U i with
  | nil =>
    cases U with
    | nil => rfl
    | cons u us => simp [leAll2] at h
  | cons row rest ih =>
    cases U with
    | nil => simp [leAll2] at h
    | cons urow urest =>
      simp only [leAll2, Bool.and_eq_true] at h
      cases i with
      | zero =>
        simp only [get2, List.getD_cons_zero] at hm
        simp only [update2, leAll2, Bool.and_eq_true]
        exact ⟨leAll_set_right row urow j m h.1 hm, h.2⟩
      | succ i' =>
        simp only [get2, List.getD_cons_succ] at hm
        simp only [update2, leAll2, Bool.and_eq_true]
        exact ⟨h.1, ih urest i' h.2 hm⟩

theorem leAll2_update2_left (L U : List (List ℚ)) (i j : Nat) (m : ℚ)
    (h : leAll2 L U = true) (hm : m ≤ get2 U i j) :
    leAll2 (update2 L i j m) U = true := by
  induction L generalizing U i with
  | nil =>
    cases U with
    | nil => rfl
    | cons u us => simp [leAll2] at h
  | cons row rest ih =>
    cases U with
    | nil => simp [leAll2] at h
    | cons urow urest =>
      simp only [leAll2, Bool.and_eq_true] at h
      cases i with
      | zero =>
        simp only [get2, List.getD_cons_zero] at hm
        simp only [update2, leAll2, Bool.and_eq_true]
        exact ⟨leAll_set_left row urow j m h.1 hm, h.2⟩
      | succ i' =>
        simp only [get2, List.getD_cons_succ] at hm
        simp only [update2, leAll2, Bool.and_eq_true]
        exact ⟨h.1, ih urest i' h.2 hm⟩

theorem splitDomain_invariant (d : Domain ℚ)
    (h : leAll2 d.lower_left_corner d.upper_right_corner = true) :
    ∀ c ∈ splitDomain d,
      leAll2 c.lower_left_corner c.upper_right_corner = true := by
  intro c hc
  unfold splitDomain at hc
  cases hw : widestAxis d with
  | none =>
    rw [hw] at hc
    simp only [List.mem_singleton] at hc
    subst hc
    exact h
  | some ax =>
    obtain ⟨i, j⟩ := ax
    rw [hw] at hc
    have hv := widestAxis_valid d i j hw
    have hlu : get2 d.lower_left_corner i j ≤ get2 d.upper_right_corner i j :=
      leAll2_at _ _ i j h hv.1 hv.2
    set l := get2 d.lower_left_corner i j with hl
    set u := get2 d.upper_right_corner i j with hu
    have hlm : l ≤ (l + u) / 2 := by linarith
    have hmu : (l + u) / 2 ≤ u := by linarith
    simp only [List.mem_cons, List.mem_singleton, List.not_mem_nil,
      or_false] at hc
    rcases hc with hc | hc <;> subst hc
    · exact leAll2_update2_right _ _ i j _ h hlm
    · exact leAll2_update2_left _ _ i j _ h hmu

theorem leAll2_length {L U : List (List ℚ)} (h : leAll2 L U = true) :
    L.length = U.length := by
  induction L generalizing U with
  | nil => cases U with
    | nil => rfl
    | cons u us => simp [leAll2] at h
  | cons row rest ih =>
    cases U with
    | nil => simp [leAll2] at h
    | cons urow urest =>
      simp only [leAll2, Bool.and_eq_true] at h
      simp [ih h.2]

theorem leAll2_row_length {L U : List (List ℚ)} (h : leAll2 L U = true)
    (i : Nat) : (L.getD i []).length = (U.getD i []).length := by
  induction L generalizing U i with
  | nil => cases U with
    | nil => rfl
    | cons u us => simp [leAll2] at h
  | cons row rest ih =>
    cases U with
    | nil => simp [leAll2] at h
    | cons urow urest =>
      simp only [leAll2, Bool.and_eq_true] at h
      cases i with
      | zero => simpa using leAll_sameLength h.1
      | succ i' =>
        simp only [List.getD_cons_succ]
        exact ih h.2 i'

theorem splitDomain_interiors_disjoint (d : Domain ℚ) (p : List (List ℚ))
    (h : leAll2 d.lower_left_corner d.upper_right_corner = true)
    (i j : Nat) (hw : widestAxis d = some (i, j)) :
    ¬(inBoxLt2 d.lower_left_corner
        (update2 d.upper_right_corner i j
          ((get2 d.lower_left_corner i j +
            get2 d.upper_right_corner i j) / 2)) p = true ∧
      inBoxLt2 (update2 d.lower_left_corner i j
          ((get2 d.lower_left_corner i j +
            get2 d.upper_right_corner i j) / 2))
        d.upper_right_corner p = true) := by
  rintro ⟨h1, h2⟩
  have hv := widestAxis_valid d i j hw
  have hvU1 : i < d.upper_right_corner.length := leAll2_length h ▸ hv.1
  have hvU2 : j < (d.upper_right_corner.getD i []).length :=
    leAll2_row_length h i ▸ hv.2
  have e1 := inBoxLt2_at _ _ p i j h1 hv.1 hv.2
  have e2 := inBoxLt2_at _ _ p i j h2
    (by rw [update2_length]; exact hv.1)
    (by rw [update2_getD_length]; exact hv.2)
  rw [get2_update2_self _ i j _ hvU1 hvU2] at e1
  rw [get2_update2_self _ i j _ hv.1 hv.2] at e2
  have := e1.2
  have := e2.1
  linarith

/-- C7: splitting a Domain that satisfies the corner invariants yields
child Domains whose union is exactly the parent (a point lies in the
parent iff it lies in some child), whose interiors are pairwise
disjoint, and whose corners include the parent's two corners. -/
theorem splitDomain_partition_exact (d : Domain ℚ) (p : List (List ℚ))
    (h : leAll2 d.lower_left_corner d.upper_right_corner = true) :
    (memD d p = (splitDomain d).any (fun c => memD c p)) ∧
    List.Pairwise
      (fun a b => ¬(interiorD a p = true ∧ interiorD b p = true))
      (splitDomain d) ∧
    (∃ c ∈ splitDomain d, c.lower_left_corner = d.lower_left_corner) ∧
    (∃ c ∈ splitDomain d, c.upper_right_corner = d.upper_right_corner) := by
  cases hw : widestAxis d with
  | none =>
    simp [splitDomain, hw, memD]
  | some ax =>
    obtain ⟨i, j⟩ := ax
    have hv := widestAxis_valid d i j hw
    have hlu : get2 d.lower_left_corner i j ≤ get2 d.upper_right_corner i j :=
      leAll2_at _ _ i j h hv.1 hv.2
    have hlm : get2 d.lower_left_corner i j ≤
        (get2 d.lower_left_corner i j + get2 d.upper_right_corner i j) / 2 := by
      linarith
    have hmu : (get2 d.lower_left_corner i j +
        get2 d.upper_right_corner i j) / 2 ≤
        get2 d.upper_right_corner i j := by
      linarith
    refine ⟨?_, ?_, ?_, ?_⟩
    · simp only [splitDomain, hw, List.any_cons, List.any_nil, Bool.or_false,
        memD]
      exact inBox2_split _ _ p i j _ hlm hmu
    · have hdisj := splitDomain_interiors_disjoint d p h i j hw
      simp only [splitDomain, hw]
      refine List.Pairwise.cons ?_ (List.Pairwise.cons ?_ List.Pairwise.nil)
      · intro b hb
        simp only [List.mem_singleton] at hb
        subst hb
        simpa [interiorD] using hdisj
      · intro b hb
        simp at hb
    · refine ⟨⟨d.lower_left_corner, update2 d.upper_right_corner i j
        ((get2 d.lower_left_corner i j +
          get2 d.upper_right_corner i j) / 2)⟩, ?_, rfl⟩
      simp [splitDomain, hw]
    · refine ⟨⟨update2 d.lower_left_corner i j
        ((get2 d.lower_left_corner i j +
          get2 d.upper_right_corner i j) / 2), d.upper_right_corner⟩, ?_, rfl⟩
      simp [splitDomain, hw]

/-- Modelled from the spec: step 1 of the EZD engine (absent from the
shown sources) initializes one Domain spanning the full feasible
hyper-rectangle, `[0,1]` per site-fraction axis, with the per-sublattice
shape given by the species counts `shape`. -/
def initialDomain (shape : List Nat) : Domain ℚ :=
  ⟨shape.map (fun n => List.replicate n 0),
   shape.map (fun n => List.replicate n 1)⟩

/-- Concatenation of the images of a Domain list. -/
def flatMapD {α : Type} (f : Domain ℚ → List α) : List (Domain ℚ) → List α
  | [] => []
  | d :: ds => f d ++ flatMapD f ds

/-- Modelled from the spec: the sub-Domains at which the EZD recursion
stops when started on `d` — depth budget exhausted, or the Domain has
collapsed to zero width on every axis (NumericalDegeneracy), in which
case it is not split further. -/
def leafDomains : Domain ℚ → Nat → List (Domain ℚ)
  | d, 0 => [d]
  | d, n + 1 =>
      if qle (domWidth d) 0 then [d]
      else flatMapD (fun c => leafDomains c n) (splitDomain d)

theorem mem_flatMapD {α : Type} (f : Domain ℚ → List α) (l : List (Domain ℚ))
    (a : α) : a ∈ flatMapD f l ↔ ∃ d ∈ l, a ∈ f d := by
  induction l with
  | nil => simp [flatMapD]
  | cons d ds ih => simp [flatMapD, ih, List.mem_append]

theorem flatMapD_eq_nil {α : Type} (f : Domain ℚ → List α)
    (l : List (Domain ℚ)) : flatMapD f l = [] ↔ ∀ d ∈ l, f d = [] := by
  induction l with
  | nil => simp [flatMapD]
  | cons d ds ih => simp [flatMapD, ih, List.append_eq_nil]

theorem leAll_replicate (n : Nat) : leAll (List.replicate n 0) (List.replicate n 1) = true := by
  induction n with
  | zero => rfl
  | succ k ih => simpa [List.replicate, leAll, qle] using ih

theorem initialDomain_leAll2 (shape : List Nat) :
    leAll2 (initialDomain shape).lower_left_corner
      (initialDomain shape).upper_right_corner = true := by
  induction shape with
  | nil => rfl
  | cons n rest ih =>
    simp only [initialDomain, List.map_cons, leAll2, Bool.and_eq_true]
    exact ⟨leAll_replicate n, ih⟩

theorem leAll2_domainInvariant {d : Domain ℚ}
    (h : leAll2 d.lower_left_corner d.upper_right_corner = true) :
    domainInvariant d = true := by
  simp [domainInvariant, leAll2_sameShape h, h]

theorem leafDomains_invariant (n : Nat) (d : Domain ℚ)
    (h : leAll2 d.lower_left_corner d.upper_right_corner = true) :
    ∀ c ∈ leafDomains d n,
      leAll2 c.lower_left_corner c.upper_right_corner = true := by
  induction n generalizing d with
  | zero =>
    intro c hc
    simp only [leafDomains, List.mem_singleton] at hc
    subst hc
    exact h
  | succ k ih =>
    intro c hc
    simp only [leafDomains] at hc
    by_cases hq : qle (domWidth d) 0 = true
    · rw [if_pos hq] at hc
      simp only [List.mem_singleton] at hc
      subst hc
      exact h
    · rw [if_neg hq] at hc
      rw [mem_flatMapD] at hc
      obtain ⟨c', hc', hcc⟩ := hc
      exact ih c' (splitDomain_invariant d h c' hc') c hcc

/-- C8: the documented Domain invariant — identical corner shape,
pointwise ordered corners, zero width being a valid collapsed region
rather than an error — holds for every Domain the algorithm builds:
collapsed Domains satisfy it, the initial full hyper-rectangle
satisfies it, splitting preserves it, and hence every sub-Domain the
recursion ever reaches satisfies it. -/
theorem domain_invariant_preserved (L : List (List ℚ)) (shape : List Nat)
    (d : Domain ℚ) (n : Nat) (hd : domainInvariant d = true) :
    domainInvariant ⟨L, L⟩ = true ∧
    domainInvariant (initialDomain shape) = true ∧
    (∀ c ∈ splitDomain d, domainInvariant c = true) ∧
    (∀ c ∈ leafDomains d n, domainInvariant c = true) := by
  have hle : leAll2 d.lower_left_corner d.upper_right_corner = true := by
    simp only [domainInvariant, Bool.and_eq_true] at hd
    exact hd.2
  refine ⟨?_, ?_, ?_, ?_⟩
  · exact leAll2_domainInvariant (d := ⟨L, L⟩) (leAll2_refl L)
  · exact leAll2_domainInvariant (initialDomain_leAll2 shape)
  · intro c hc
    exact leAll2_domainInvariant (splitDomain_invariant d hle c hc)
  · intro c hc
    exact leAll2_domainInvariant (leafDomains_invariant n d hle c hc)

/-- A concrete example Domain: one sublattice, two species, the full
`[0,1]²` square. -/
def dEx : Domain ℚ := ⟨[[0, 0]], [[1, 1]]⟩

/-- A concrete example point: the center of `dEx`. -/
def pEx : List (List ℚ) := [[1/2, 1/2]]

/-- Witness for C7 at the concrete Domain `dEx` and point `pEx`. -/
theorem splitDomain_partition_exact_witness :
    (memD dEx pEx = (splitDomain dEx).any (fun c => memD c pEx)) ∧
    List.Pairwise
      (fun a b => ¬(interiorD a pEx = true ∧ interiorD b pEx = true))
      (splitDomain dEx) ∧
    (∃ c ∈ splitDomain dEx, c.lower_left_corner = dEx.lower_left_corner) ∧
    (∃ c ∈ splitDomain dEx, c.upper_right_corner = dEx.upper_right_corner) :=
  splitDomain_partition_exact dEx pEx (by decide)

/-- Witness for C8 at concrete inputs. -/
theorem domain_invariant_preserved_witness :
    domainInvariant ⟨[[3]], [[3]]⟩ = true ∧
    domainInvariant (initialDomain [2]) = true ∧
    (∀ c ∈ splitDomain dEx, domainInvariant c = true) ∧
    (∀ c ∈ leafDomains dEx 1, domainInvariant c = true) :=
  domain_invariant_preserved [[3]] [2] dEx 1 (by decide)

/-- C10: the `Domain` type of `ezd_minimization.hpp` enforces nothing:
any pair of nested sequences of any shapes is a constructible `Domain`,
and some `Domain` values violate the documented corner ordering
`lower_left_corner[i][j] <= upper_right_corner[i][j]` and even the
corner shape equality — the invariants are obligations on the code that
builds Domains, not guarantees of the type. -/
theorem domain_type_enforces_no_invariant :
    (∀ L U : List (List ℚ), ∃ d : Domain ℚ,
       d.lower_left_corner = L ∧ d.upper_right_corner = U) ∧
    (∃ d : Domain ℚ, get2 d.upper_right_corner 0 0 <
       get2 d.lower_left_corner 0 0) ∧
    (∃ d : Domain ℚ,
       leAll2 d.lower_left_corner d.upper_right_corner = false) ∧
    (∃ d : Domain ℚ,
       sameShape d.lower_left_corner d.upper_right_corner = false) :=
  ⟨fun L U => ⟨⟨L, U⟩, rfl, rfl⟩,
   ⟨⟨[[1]], [[0]]⟩, by decide⟩,
   ⟨⟨[[1]], [[0]]⟩, by decide⟩,
   ⟨⟨[[0]], []⟩, by decide⟩⟩

/-- Modelled from the spec: the configuration-error outcome of
`LocateMinima` (§7) — the engine body being absent from the shown
sources — raised when the supplied constraints admit no feasible,
defined sample anywhere in the initial Domain. -/
inductive ConfigurationError : Type
  | noFeasiblePoint
deriving DecidableEq, Repr

/-- Modelled from the spec: a candidate-minimum output record — a
composition-space point, its evaluated energy, and the width of the
smallest Domain that contained it when it was accepted. -/
structure CandidateMinimum where
  point : List (List ℚ)
  energy : ℚ
  width : ℚ
deriving DecidableEq, Repr

/-- Modelled from the spec: `evalconditions` (declared in
`conditions.hpp`, not among the shown sources) — the externally fixed
thermodynamic state (temperature, pressure), read-only here. -/
structure evalconditions where
  T : ℚ
  P : ℚ

/-- Modelled from the spec: `CompositionSet` (declared in
`compositionset.hpp`, not among the shown sources) — one phase's bound
energy model; evaluation may fail at singular points, returning an
undefined outcome (`none`) rather than a fatal error. -/
structure CompositionSet where
  energy : List (List ℚ) → evalconditions → Option ℚ

/-- Modelled from the spec: `sublattice_set` (declared in
`models.hpp`/`constraint.hpp`, not among the shown sources) — the
phase's sublattice structure (species count per sublattice) and the
feasibility constraints a point must satisfy. -/
structure sublattice_set where
  shape : List Nat
  feasible : List (List ℚ) → Bool

/-- Modelled from the spec: the interior reference sample of a Domain —
its centroid, strictly interior to the Domain wherever the Domain has
positive width, so corners adjacent to zero are never sampled
directly. -/
def centroid (d : Domain ℚ) : List (List ℚ) :=
  List.zipWith
    (fun lrow urow => List.zipWith (fun l u => (l + u) / 2) lrow urow)
    d.lower_left_corner d.upper_right_corner

/-- Modelled from the spec: the best interior sample of a Domain — the
centroid sample, kept only when feasible and defined (undefined and
infeasible samples are skipped). -/
def sampleBest (feasible : List (List ℚ) → Bool)
    (energy : List (List ℚ) → Option ℚ) (d : Domain ℚ) :
    Option ((List (List ℚ)) × ℚ) :=
  if feasible (centroid d) then
    match energy (centroid d) with
    | some e => some (centroid d, e)
    | none => none
  else none

/-- Modelled from the spec: emit the Domain's best interior sample as a
candidate minimum tagged with the Domain's width, or nothing when every
sample of the Domain is infeasible or undefined (silent pruning). -/
def emitLeaf (feasible : List (List ℚ) → Bool)
    (energy : List (List ℚ) → Option ℚ) (d : Domain ℚ) :
    List CandidateMinimum :=
  match sampleBest feasible energy d with
  | some pe => [⟨pe.1, pe.2, domWidth d⟩]
  | none => []

/-- Modelled from the spec: the recursive EZD engine (§4.4, absent from
the shown sources).  Domain-level feasibility is classified as "mixed"
(a valid implementation per §4.2), pushing feasibility to point-level
checks; the open pruning tolerances are taken conservatively (no
best-bound pruning, which the spec notes only costs extra work and
never loses correctness).  At depth 0, or when the Domain has collapsed
to zero width on every axis, the best interior sample is emitted;
otherwise the Domain is split at its widest axis and the engine
recurses into each child. -/
def ezdRecurse (feasible : List (List ℚ) → Bool)
    (energy : List (List ℚ) → Option ℚ) :
    Domain ℚ → Nat → List CandidateMinimum
  | d, 0 => emitLeaf feasible energy d
  | d, n + 1 =>
      if qle (domWidth d) 0 then emitLeaf feasible energy d
      else flatMapD (fun c => ezdRecurse feasible energy c n) (splitDomain d)

/-- The canonical output order: energy ascending. -/
def candLE (a b : CandidateMinimum) : Prop := a.energy ≤ b.energy

instance : DecidableRel candLE :=
  fun a b => inferInstanceAs (Decidable (a.energy ≤ b.energy))

instance : IsTotal CandidateMinimum candLE :=
  ⟨fun a b => le_total a.energy b.energy⟩

instance : IsTrans CandidateMinimum candLE :=
  ⟨fun _ _ _ h1 h2 => le_trans h1 h2⟩

/-- Modelled from the spec: step 3 deduplication — candidates at the
same point are merged, keeping one representative (applied after the
canonical energy-ascending sort, so the kept representative has the
lowest energy for its point). -/
def dedupPoints (seen : List (List (List ℚ))) :
    List CandidateMinimum → List CandidateMinimum
  | [] => []
  | c :: rest =>
      if decide (c.point ∈ seen) then dedupPoints seen rest
      else c :: dedupPoints (c.point :: seen) rest

/-- Modelled from the spec: the canonical output form — candidates
sorted by energy ascending, then deduplicated by point. -/
def canonicalize (cs : List CandidateMinimum) : List CandidateMinimum :=
  dedupPoints [] (List.insertionSort candLE cs)

/-- Modelled from the spec: the EZD driver on an explicit initial
Domain — recurse, and fail with a configuration error exactly when no
sample anywhere was feasible and defined. -/
def LocateMinimaOn (feasible : List (List ℚ) → Bool)
    (energy : List (List ℚ) → Option ℚ) (d0 : Domain ℚ) (depth : Nat) :
    Except ConfigurationError (List CandidateMinimum) :=
  let cs := ezdRecurse feasible energy d0 depth
  if cs.isEmpty then Except.error ConfigurationError.noFeasiblePoint
  else Except.ok (canonicalize cs)

/-- Modelled from the spec: `LocateMinima` — `ezd_minimization.hpp`
holds only its declaration (with default depth 1); the engine body is
modelled from spec §4.4: initialize the full-hyper-rectangle Domain
from the phase's sublattice shape, recurse to the depth budget, and
return the canonical candidate set or a configuration error. -/
def LocateMinima (phase : CompositionSet) (sublset : sublattice_set)
    (conditions : evalconditions) (depth : Nat := 1) :
    Except ConfigurationError (List CandidateMinimum) :=
  LocateMinimaOn sublset.feasible (fun p => phase.energy p conditions)
    (initialDomain sublset.shape) depth

theorem sampleBest_some {feasible : List (List ℚ) → Bool}
    {energy : List (List ℚ) → Option ℚ} {d : Domain ℚ}
    {p : List (List ℚ)} {e : ℚ}
    (h : sampleBest feasible energy d = some (p, e)) :
    feasible p = true ∧ energy p = some e ∧ p = centroid d := by
  unfold sampleBest at h
  by_cases hf : feasible (centroid d) = true
  · rw [if_pos hf] at h
    cases he : energy (centroid d) with
    | none => rw [he] at h; simp at h
    | some e' =>
      rw [he] at h
      simp only [Option.some.injEq, Prod.mk.injEq] at h
      obtain ⟨hp, hev⟩ := h
      subst hp; subst hev
      exact ⟨hf, he, rfl⟩
  · simp only [Bool.not_eq_true] at hf
    rw [hf] at h
    simp at h

theorem emitLeaf_mem {feasible : List (List ℚ) → Bool}
    {energy : List (List ℚ) → Option ℚ} {d : Domain ℚ}
    {c : CandidateMinimum} (hc : c ∈ emitLeaf feasible energy d) :
    sampleBest feasible energy d = some (c.point, c.energy) ∧
      c.width = domWidth d := by
  unfold emitLeaf at hc
  cases hs : sampleBest feasible energy d with
  | none => rw [hs] at hc; simp at hc
  | some pe =>
    rw [hs] at hc
    simp only [List.mem_singleton] at hc
    subst hc
    exact ⟨rfl, rfl⟩

theorem emitLeaf_eq_nil {feasible : List (List ℚ) → Bool}
    {energy : List (List ℚ) → Option ℚ} {d : Domain ℚ} :
    emitLeaf feasible energy d = [] ↔
      sampleBest feasible energy d = none := by
  unfold emitLeaf
  cases hs : sampleBest feasible energy d <;> simp

theorem ezdRecurse_mem (feasible : List (List ℚ) → Bool)
    (energy : List (List ℚ) → Option ℚ) (n : Nat) (d : Domain ℚ)
    (c : CandidateMinimum) (hc : c ∈ ezdRecurse feasible energy d n) :
    ∃ d' ∈ leafDomains d n,
      sampleBest feasible energy d' = some (c.point, c.energy) ∧
        c.width = domWidth d' := by
  induction n generalizing d with
  | zero =>
    exact ⟨d, by simp [leafDomains], emitLeaf_mem hc⟩
  | succ k ih =>
    simp only [ezdRecurse] at hc
    by_cases hq : qle (domWidth d) 0 = true
    · rw [if_pos hq] at hc
      exact ⟨d, by simp [leafDomains, hq], emitLeaf_mem hc⟩
    · rw [if_neg hq] at hc
      rw [mem_flatMapD] at hc
      obtain ⟨c', hc', hcc⟩ := hc
      obtain ⟨d', hd', hprop⟩ := ih c' hcc
      refine ⟨d', ?_, hprop⟩
      simp only [leafDomains, if_neg hq]
      rw [mem_flatMapD]
      exact ⟨c', hc', hd'⟩

theorem ezdRecurse_eq_nil (feasible : List (List ℚ) → Bool)
    (energy : List (List ℚ) → Option ℚ) (n : Nat) (d : Domain ℚ) :
    ezdRecurse feasible energy d n = [] ↔
      ∀ d' ∈ leafDomains d n, sampleBest feasible energy d' = none := by
  induction n generalizing d with
  | zero =>
    simp only [ezdRecurse, leafDomains, List.mem_singleton, forall_eq]
    exact emitLeaf_eq_nil
  | succ k ih =>
    simp only [ezdRecurse, leafDomains]
    by_cases hq : qle (domWidth d) 0 = true
    · simp only [if_pos hq, List.mem_singleton, forall_eq]
      exact emitLeaf_eq_nil
    · simp only [if_neg hq]
      rw [flatMapD_eq_nil]
      constructor
      · intro h d' hd'
        rw [mem_flatMapD] at hd'
        obtain ⟨c', hc', hd'⟩ := hd'
        exact (ih c').mp (h c' hc') d' hd'
      · intro h c' hc'
        rw [ih c']
        intro d' hd'
        refine h d' ?_
        rw [mem_flatMapD]
        exact ⟨c', hc', hd'⟩

theorem dedupPoints_sublist (seen : List (List (List ℚ)))
    (l : List CandidateMinimum) : (dedupPoints seen l).Sublist l := by
  induction l generalizing seen with
  | nil => simp [dedupPoints]
  | cons c rest ih =>
    simp only [dedupPoints]
    by_cases hm : decide (c.point ∈ seen) = true
    · rw [if_pos hm]
      exact (ih seen).cons c
    · simp only [Bool.not_eq_true] at hm
      rw [hm]
      simp only [Bool.false_eq_true, if_false]
      exact (ih (c.point :: seen)).cons₂ c

theorem canonicalize_subset {cs : List CandidateMinimum}
    {c : CandidateMinimum} (hc : c ∈ canonicalize cs) : c ∈ cs := by
  unfold canonicalize at hc
  have h1 : c ∈ List.insertionSort candLE cs :=
    (dedupPoints_sublist [] _).mem hc
  exact (List.perm_insertionSort candLE cs).mem_iff.mp h1

theorem canonicalize_sorted (cs : List CandidateMinimum) :
    List.Sorted candLE (canonicalize cs) :=
  (List.sorted_insertionSort candLE cs).sublist (dedupPoints_sublist [] _)

theorem locateMinimaOn_ok {feasible : List (List ℚ) → Bool}
    {energy : List (List ℚ) → Option ℚ} {d0 : Domain ℚ} {depth : Nat}
    {cs : List CandidateMinimum}
    (h : LocateMinimaOn feasible energy d0 depth = Except.ok cs) :
    cs = canonicalize (ezdRecurse feasible energy d0 depth) ∧
      ezdRecurse feasible energy d0 depth ≠ [] := by
  simp only [LocateMinimaOn] at h
  by_cases he : (ezdRecurse feasible energy d0 depth).isEmpty = true
  · rw [if_pos he] at h
    exact absurd h (by simp)
  · rw [if_neg he] at h
    simp only [Except.ok.injEq] at h
    refine ⟨h.symm, fun hnil => he (List.isEmpty_iff.mpr hnil)⟩

/-- C1: every successful `LocateMinima` call returns CandidateMinimum
records: each consists of a composition-space point (the interior
sample of some sub-Domain the recursion reached from the initial
Domain), the energy the phase model evaluates to at that point, and the
width of that source Domain. -/
theorem locateMinima_returns_candidate_records
    (phase : CompositionSet) (sublset : sublattice_set)
    (conditions : evalconditions) (depth : Nat)
    (cs : List CandidateMinimum)
    (h : LocateMinima phase sublset conditions depth = Except.ok cs) :
    ∀ c ∈ cs, phase.energy c.point conditions = some c.energy ∧
      ∃ d' ∈ leafDomains (initialDomain sublset.shape) depth,
        c.point = centroid d' ∧ c.width = domWidth d' := by
  intro c hc
  unfold LocateMinima at h
  obtain ⟨hcs, _⟩ := locateMinimaOn_ok h
  rw [hcs] at hc
  obtain ⟨d', hd', hsamp, hwidth⟩ :=
    ezdRecurse_mem _ _ depth _ c (canonicalize_subset hc)
  obtain ⟨_, hen, hcent⟩ := sampleBest_some hsamp
  exact ⟨hen, d', hd', hcent, hwidth⟩

/-- C2: every candidate returned by a successful `LocateMinima` call
satisfies the supplied feasibility constraints. -/
theorem locateMinima_candidates_feasible
    (phase : CompositionSet) (sublset : sublattice_set)
    (conditions : evalconditions) (depth : Nat)
    (cs : List CandidateMinimum)
    (h : LocateMinima phase sublset conditions depth = Except.ok cs) :
    ∀ c ∈ cs, sublset.feasible c.point = true := by
  intro c hc
  unfold LocateMinima at h
  obtain ⟨hcs, _⟩ := locateMinimaOn_ok h
  rw [hcs] at hc
  obtain ⟨d', _, hsamp, _⟩ :=
    ezdRecurse_mem _ _ depth _ c (canonicalize_subset hc)
  exact (sampleBest_some hsamp).1

/-- C3: `LocateMinima` reports a configuration error if and only if no
sample anywhere in the initial Domain is feasible and defined; and a
sub-Domain all of whose samples are infeasible or undefined is pruned
silently — whenever any other sub-Domain yields a sample, the call
still succeeds. -/
theorem locateMinima_error_iff_no_feasible_sample
    (phase : CompositionSet) (sublset : sublattice_set)
    (conditions : evalconditions) (depth : Nat) :
    (LocateMinima phase sublset conditions depth =
        Except.error ConfigurationError.noFeasiblePoint ↔
      ∀ d' ∈ leafDomains (initialDomain sublset.shape) depth,
        sampleBest sublset.feasible
          (fun p => phase.energy p conditions) d' = none) ∧
    (∀ d0 ∈ leafDomains (initialDomain sublset.shape) depth,
      sampleBest sublset.feasible
          (fun p => phase.energy p conditions) d0 = none →
      ∀ d1 ∈ leafDomains (initialDomain sublset.shape) depth,
        sampleBest sublset.feasible
            (fun p => phase.energy p conditions) d1 ≠ none →
        ∃ cs, LocateMinima phase sublset conditions depth =
          Except.ok cs) := by
  have hiff : LocateMinima phase sublset conditions depth =
      Except.error ConfigurationError.noFeasiblePoint ↔
      ∀ d' ∈ leafDomains (initialDomain sublset.shape) depth,
        sampleBest sublset.feasible
          (fun p => phase.energy p conditions) d' = none := by
    unfold LocateMinima
    simp only [LocateMinimaOn]
    rw [← ezdRecurse_eq_nil]
    by_cases he : (ezdRecurse sublset.feasible
        (fun p => phase.energy p conditions)
        (initialDomain sublset.shape) depth).isEmpty = true
    · rw [if_pos he]
      simp [List.isEmpty_iff.mp he]
    · rw [if_neg he]
      constructor
      · intro hc
        exact absurd hc (by simp)
      · intro hnil
        exact absurd (List.isEmpty_iff.mpr hnil) he
  refine ⟨hiff, ?_⟩
  intro d0 _ _ d1 hd1 hs1
  cases hres : LocateMinima phase sublset conditions depth with
  | error e =>
    cases e
    exact absurd ((hiff.mp hres) d1 hd1) hs1
  | ok cs => exact ⟨cs, rfl⟩

theorem canonicalize_singleton (c : CandidateMinimum) :
    canonicalize [c] = [c] := by
  simp [canonicalize, List.insertionSort, List.orderedInsert, dedupPoints]

/-- C4: calling `LocateMinima` with depth 0 evaluates only the initial
Domain without subdividing: a successful call returns at most one
candidate, equal to the best interior sample of the full initial
Domain, tagged with that Domain's width. -/
theorem locateMinima_depth_zero
    (phase : CompositionSet) (sublset : sublattice_set)
    (conditions : evalconditions) (cs : List CandidateMinimum)
    (h : LocateMinima phase sublset conditions 0 = Except.ok cs) :
    cs.length ≤ 1 ∧
    ∀ c ∈ cs,
      sampleBest sublset.feasible (fun p => phase.energy p conditions)
          (initialDomain sublset.shape) = some (c.point, c.energy) ∧
        c.width = domWidth (initialDomain sublset.shape) := by
  unfold LocateMinima at h
  obtain ⟨hcs, hne⟩ := locateMinimaOn_ok h
  simp only [ezdRecurse] at hcs hne
  cases hs : sampleBest sublset.feasible
      (fun p => phase.energy p conditions) (initialDomain sublset.shape) with
  | none =>
    exact absurd (emitLeaf_eq_nil.mpr hs) hne
  | some pe =>
    have hemit : emitLeaf sublset.feasible
        (fun p => phase.energy p conditions) (initialDomain sublset.shape) =
        [⟨pe.1, pe.2, domWidth (initialDomain sublset.shape)⟩] := by
      simp [emitLeaf, hs]
    rw [hemit, canonicalize_singleton] at hcs
    subst hcs
    refine ⟨by simp, ?_⟩
    intro c hc
    simp only [List.mem_singleton] at hc
    subst hc
    exact ⟨rfl, rfl⟩

/-- C5: determinism with a canonical output ordering: the result is a
pure function of the observable collaborator behavior — two calls whose
inputs agree pointwise return bit-identical results — and every
successful result is canonically sorted by energy ascending. -/
theorem locateMinima_deterministic
    (phase1 phase2 : CompositionSet) (sublset1 sublset2 : sublattice_set)
    (conditions1 conditions2 : evalconditions) (depth : Nat)
    (hshape : sublset1.shape = sublset2.shape)
    (hfeas : ∀ p, sublset1.feasible p = sublset2.feasible p)
    (hen : ∀ p, phase1.energy p conditions1 = phase2.energy p conditions2) :
    LocateMinima phase1 sublset1 conditions1 depth =
      LocateMinima phase2 sublset2 conditions2 depth ∧
    ∀ cs, LocateMinima phase1 sublset1 conditions1 depth = Except.ok cs →
      List.Sorted candLE cs := by
  constructor
  · unfold LocateMinima
    rw [funext hfeas, funext hen, hshape]
  · intro cs h
    unfold LocateMinima at h
    obtain ⟨hcs, _⟩ := locateMinimaOn_ok h
    rw [hcs]
    exact canonicalize_sorted _

/-- Modelled from the spec: the calling convention of `LocateMinima` —
the header declares all three collaborators as const references, so the
call is embedded state-passing style, returning its result together
with the collaborator values as observable after the call. -/
def LocateMinimaCall (phase : CompositionSet) (sublset : sublattice_set)
    (conditions : evalconditions) (depth : Nat) :
    Except ConfigurationError (List CandidateMinimum) ×
      CompositionSet × sublattice_set × evalconditions :=
  (LocateMinima phase sublset conditions depth, phase, sublset, conditions)

/-- C9: frame property: a `LocateMinima` call leaves its three
collaborator arguments unchanged — the phase's CompositionSet, the
sublattice constraint set, and the evalconditions observable after the
call are the ones passed in, and the first component is the result of
the pure computation. -/
theorem locateMinima_preserves_collaborators
    (phase : CompositionSet) (sublset : sublattice_set)
    (conditions : evalconditions) (depth : Nat) :
    (LocateMinimaCall phase sublset conditions depth).2.1 = phase ∧
    (LocateMinimaCall phase sublset conditions depth).2.2.1 = sublset ∧
    (LocateMinimaCall phase sublset conditions depth).2.2.2 = conditions ∧
    (LocateMinimaCall phase sublset conditions depth).1 =
      LocateMinima phase sublset conditions depth :=
  ⟨rfl, rfl, rfl, rfl⟩

/-- A concrete example phase: constant zero energy, defined
everywhere. -/
def phaseEx : CompositionSet := ⟨fun _ _ => some 0⟩

/-- A concrete example constraint set: one sublattice with one species,
every point feasible. -/
def sublsetEx : sublattice_set := ⟨[1], fun _ => true⟩

/-- Concrete example conditions. -/
def condEx : evalconditions := ⟨300, 1⟩

/-- The candidate the example call at depth 0 returns: the centroid of
the unit interval, zero energy, width one. -/
def candEx : CandidateMinimum := ⟨[[1/2]], 0, 1⟩

theorem locateMinimaEx0 :
    LocateMinima phaseEx sublsetEx condEx 0 = Except.ok [candEx] := by
  norm_num [LocateMinima, LocateMinimaOn, ezdRecurse, emitLeaf, sampleBest,
    centroid, initialDomain, domWidth, axisList, get2, canonicalize,
    dedupPoints, List.insertionSort, List.orderedInsert, phaseEx, sublsetEx,
    condEx, candEx, qle, List.range_succ]

/-- Witness for C1 at a concrete call. -/
theorem locateMinima_returns_candidate_records_witness :
    phaseEx.energy candEx.point condEx = some candEx.energy ∧
      ∃ d' ∈ leafDomains (initialDomain sublsetEx.shape) 0,
        candEx.point = centroid d' ∧ candEx.width = domWidth d' :=
  locateMinima_returns_candidate_records phaseEx sublsetEx condEx 0 [candEx]
    locateMinimaEx0 candEx (by simp)

/-- Witness for C2 at a concrete call. -/
theorem locateMinima_candidates_feasible_witness :
    sublsetEx.feasible candEx.point = true :=
  locateMinima_candidates_feasible phaseEx sublsetEx condEx 0 [candEx]
    locateMinimaEx0 candEx (by simp)

/-- Witness for C4 at a concrete call. -/
theorem locateMinima_depth_zero_witness :
    ([candEx] : List CandidateMinimum).length ≤ 1 ∧
    ∀ c ∈ [candEx],
      sampleBest sublsetEx.feasible (fun p => phaseEx.energy p condEx)
          (initialDomain sublsetEx.shape) = some (c.point, c.energy) ∧
        c.width = domWidth (initialDomain sublsetEx.shape) :=
  locateMinima_depth_zero phaseEx sublsetEx condEx [candEx] locateMinimaEx0

/-- Witness for C5 at a concrete call. -/
theorem locateMinima_deterministic_witness :
    LocateMinima phaseEx sublsetEx condEx 1 =
      LocateMinima phaseEx sublsetEx condEx 1 ∧
    ∀ cs, LocateMinima phaseEx sublsetEx condEx 1 = Except.ok cs →
      List.Sorted candLE cs :=
  locateMinima_deterministic phaseEx phaseEx sublsetEx sublsetEx condEx condEx
    1 rfl (fun _ => rfl) (fun _ => rfl)

end Optimizer
